import Mathlib

set_option maxHeartbeats 1000000

/-!
Verification development for the tantivy stacker `TermHashMap`
(`src/datastruct/stacker/hashmap.rs`): the murmur2 hash function, the
per-thread memory-budget splitter `split_memory`, and the quadratic-probing,
fixed-capacity term hash table with its insertion-ordered iterator.

Machine integers are embedded as `Nat` with explicit reduction `% 2^32`
(`u32`) at every point where the Rust code performs a wrapping `u32`
operation.  The external bump-allocator heap (`heap.rs`, not part of the
sources) is modelled from its contract as stated in the specification.
-/

/-- Reduction of a natural number to the range of a 32-bit unsigned machine
integer, used wherever the Rust source performs a wrapping `u32` operation. -/
def u32 (x : Nat) : Nat := x % 2 ^ 32

namespace Murmur2

/-- Seed constant `SEED` of the `murmurhash2` module. -/
def SEED : Nat := 3242157231

/-- Multiplier constant `M` of the `murmurhash2` module. -/
def M : Nat := 0x5bd1e995

/-- Little-endian 32-bit word assembled from four consecutive input bytes,
as produced by the unaligned `*const u32` load in the source on a
little-endian machine (each `bi < 256`). -/
def leWord (b0 b1 b2 b3 : Nat) : Nat :=
  b0 ||| (b1 <<< 8) ||| (b2 <<< 16) ||| (b3 <<< 24)

/-- Mixing of one full 4-byte word `k` into the running hash `h`:
`k *= M; k ^= k >> 24; k *= M; h *= M; h ^= k` (all `u32`-wrapping). -/
def mixWord (h k : Nat) : Nat :=
  let k1 := u32 (k * M)
  let k2 := k1 ^^^ (k1 >>> 24)
  let k3 := u32 (k2 * M)
  u32 (h * M) ^^^ k3

/-- The word loop of `murmurhash2` (`for _ in 0..num_blocks`) followed by the
trailing-bytes `match remaining.len()`: full 4-byte words are mixed in one at
a time, and the final 1 to 3 bytes, if any, are XORed in (byte at remainder
index 2 shifted left 16, index 1 shifted left 8, index 0 unshifted) followed
by a single multiply by `M`. -/
def murmurBody (h : Nat) : List Nat → Nat
  | b0 :: b1 :: b2 :: b3 :: rest => murmurBody (mixWord h (leWord b0 b1 b2 b3)) rest
  | [b0, b1, b2] => u32 ((h ^^^ (b2 <<< 16) ^^^ (b1 <<< 8) ^^^ b0) * M)
  | [b0, b1] => u32 ((h ^^^ (b1 <<< 8) ^^^ b0) * M)
  | [b0] => u32 ((h ^^^ b0) * M)
  | [] => h

/-- Final avalanche of `murmurhash2`:
`h ^= h >> 13; h *= M; h ^ (h >> 15)`. -/
def avalanche (h : Nat) : Nat :=
  let h1 := h ^^^ (h >>> 13)
  let h2 := u32 (h1 * M)
  h2 ^^^ (h2 >>> 15)

/-- The `murmurhash2` function of the source: seed the hash with
`SEED ^ len`, mix all full words and the trailing bytes, then avalanche.
Input bytes are given as a list of naturals below 256. -/
def murmurhash2 (key : List Nat) : Nat :=
  avalanche (murmurBody (SEED ^^^ u32 key.length) key)

/-- Word-only part of the hash computation, following the specification's
wording: mixes every full 4-byte word and ignores the 0 to 3 trailing bytes.
Used to state how the trailing bytes are folded in. -/
def wordsHash (h : Nat) : List Nat → Nat
  | b0 :: b1 :: b2 :: b3 :: rest => wordsHash (mixWord h (leWord b0 b1 b2 b3)) rest
  | _ => h

/-- Most-significant-byte-first fold of the 0 to 3 trailing bytes, following
the specification's wording: byte at remainder index 2 shifted left 16,
index 1 shifted left 8, index 0 unshifted. -/
def msbFold : List Nat → Nat
  | [b0, b1, b2] => (b2 <<< 16) ^^^ ((b1 <<< 8) ^^^ b0)
  | [b0, b1] => (b1 <<< 8) ^^^ b0
  | [b0] => b0
  | _ => 0

end Murmur2

/-- Modelled from the spec: `BytesRef` (defined in the external `heap.rs`) is
an opaque, copyable 32-bit arena offset with a reserved sentinel denoting
"null"; we embed it as `Option Nat`, `none` being the null sentinel.  A
`KeyValue` slot therefore occupies 4 + 4 = 8 bytes, which is the slot size
pinned by the `split_memory` regression test values. -/
def keyValueSize : Nat := 8

/-- The closure `compute_table_size` of `split_memory`:
`(1 << num_bits) * mem::size_of::<KeyValue>()`. -/
def compute_table_size (num_bits : Nat) : Nat := (1 <<< num_bits) * keyValueSize

/-- Fuel-bounded rendering of the iterator chain
`(1..).take_while(|b| compute_table_size b < limit).last()` in `split_memory`:
starting at `b`, while the predicate holds advance to `b + 1` and return the
last accepted value; `none` when the very first candidate is rejected.  The
fuel only bounds the search; `split_memory` passes fuel provably larger than
the number of iterations the Rust iterator performs. -/
def findTableBits (limit : Nat) : Nat → Nat → Option Nat
  | 0, _ => none
  | fuel + 1, b =>
    if compute_table_size b < limit then
      match findTableBits limit fuel (b + 1) with
      | some b2 => some b2
      | none => some b
    else none

/-- The `split_memory` function of the source: split a per-thread memory
budget into the heap size (in bytes) and the hash-table size (in number of
bits).  `none` models the `expect` panic ("Per thread memory is too small"). -/
def split_memory (budget : Nat) : Option (Nat × Nat) :=
  let limit := budget / 3
  match findTableBits limit budget 1 with
  | some bits => some (budget - compute_table_size bits, bits)
  | none => none

/-- Modelled from the spec: the external bump-allocator arena (`heap.rs`, not
part of the sources).  `top` is the bump pointer (next free offset);
`strings` associates to each offset returned by `allocate_and_set` the byte
string stored there (the arena stores a 2-byte length prefix followed by the
payload, hence each such allocation advances `top` by `2 + length`);
`values` associates to each address returned by `allocate_object` the value
object living there.  The arena is append-only and never frees. -/
structure Heap (V : Type) where
  top : Nat
  strings : List (Nat × List Nat)
  values : List (Nat × V)

/-- Modelled from the spec: `allocate_and_set` copies a byte string into the
arena with an internal 2-byte length prefix and returns its offset; two
back-to-back allocations are contiguous (bump allocation). -/
def Heap.allocate_and_set (h : Heap V) (byts : List Nat) : Nat × Heap V :=
  (h.top,
    { top := h.top + 2 + byts.length
      strings := (h.top, byts) :: h.strings
      values := h.values })

/-- Modelled from the spec: `allocate_object` allocates a fixed-size value
object of size `vSize`, default-constructed from its own address by
`withAddr` (the `HeapAllocable` capability), returning the address, the
fresh object, and the new arena state. -/
def Heap.allocate_object (h : Heap V) (vSize : Nat) (withAddr : Nat → V) :
    Nat × V × Heap V :=
  (h.top, withAddr h.top,
    { top := h.top + vSize
      strings := h.strings
      values := (h.top, withAddr h.top) :: h.values })

/-- Modelled from the spec: `get_slice` resolves a `BytesRef` offset to the
byte string stored there (empty for an offset that was never returned by
`allocate_and_set`). -/
def Heap.get_slice (h : Heap V) (ref : Nat) : List Nat :=
  (h.strings.lookup ref).getD []

/-- Modelled from the spec: `get_ref` / `get_mut_ref` resolve a value
address to the value object stored there. -/
def Heap.get_ref (h : Heap V) (addr : Nat) : Option V :=
  h.values.lookup addr

/-- Modelled from the spec: mutation of the value object at `addr` through a
returned mutable reference (the shallow embedding of writing through
`&mut V`). -/
def Heap.set_value (h : Heap V) (addr : Nat) (v : V) : Heap V :=
  { h with values := (addr, v) :: h.values }

/-- The `KeyValue` item stored in the hash table: a `BytesRef` to the
key/value pair in the arena (embedded as `Option Nat`, `none` being the null
sentinel) and the 32-bit hash of the key. -/
structure KeyValue where
  key_value_addr : Option Nat
  hash : Nat

instance : Inhabited KeyValue := ⟨{ key_value_addr := none, hash := 0 }⟩

/-- The `is_empty` test of `KeyValue`: the slot is empty iff its `BytesRef`
is the null sentinel (`Default` initializes slots to exactly this state). -/
def KeyValue.is_empty (kv : KeyValue) : Bool := kv.key_value_addr.isNone

/-- The `TermHashMap` state: the boxed slot array `table`, the arena `heap`
(owned by reference in the source, threaded through the state here), the
index `mask`, and the `occupied` vector of slot indices in insertion order. -/
structure TermHashMap (V : Type) where
  table : List KeyValue
  heap : Heap V
  mask : Nat
  occupied : List Nat

/-- The `QuadraticProbing` state: seed `hash`, iteration counter `i`, and
the table `mask`. -/
structure QuadraticProbing where
  hash : Nat
  i : Nat
  mask : Nat

/-- `QuadraticProbing::compute`: start the probe sequence at counter 0. -/
def QuadraticProbing.compute (hash mask : Nat) : QuadraticProbing :=
  { hash := hash, i := 0, mask := mask }

/-- `QuadraticProbing::next_probe`: increment the counter, then return the
candidate slot `(hash + i*i) & mask` (the mutation of `self` is embedded by
returning the updated probe state alongside the candidate). -/
def QuadraticProbing.next_probe (p : QuadraticProbing) : QuadraticProbing × Nat :=
  let p2 := { p with i := p.i + 1 }
  (p2, (p2.hash + p2.i * p2.i) &&& p2.mask)

/-- `TermHashMap::new`: `2^num_bucket_power_of_2` default (empty) slots,
mask `table_size - 1`, empty occupancy order, over the given arena. -/
def TermHashMap.new (num_bucket_power_of_2 : Nat) (heap : Heap V) : TermHashMap V :=
  let table_size := 1 <<< num_bucket_power_of_2
  { table := List.replicate table_size default
    heap := heap
    mask := table_size - 1
    occupied := [] }

/-- Slot access `self.table[bucket]` (buckets produced by probing are always
in range; out-of-range access is given the default slot to keep the embedding
total). -/
def slotAt (s : TermHashMap V) (bucket : Nat) : KeyValue :=
  s.table.getD bucket default

/-- `TermHashMap::probe`: seed a `QuadraticProbing` from the hash. -/
def TermHashMap.probe (s : TermHashMap V) (hash : Nat) : QuadraticProbing :=
  QuadraticProbing.compute hash s.mask

/-- `TermHashMap::is_saturated`: `self.table.len() < self.occupied.len() * 3`. -/
def is_saturated (s : TermHashMap V) : Bool :=
  s.table.length < s.occupied.length * 3

/-- `TermHashMap::get_key_value`: resolve a (non-null) `BytesRef` to the key
bytes and the address of the value object, `bytes_ref.addr() + 2 + key_bytes.len()`. -/
def get_key_value (s : TermHashMap V) (ref : Nat) : List Nat × Nat :=
  let key_bytes := s.heap.get_slice ref
  (key_bytes, ref + 2 + key_bytes.length)

/-- `TermHashMap::set_bucket`: push the bucket on the occupancy order and
store `(key_value_addr, hash)` into the slot. -/
def set_bucket (s : TermHashMap V) (hash : Nat) (key_value_addr : Nat) (bucket : Nat) :
    TermHashMap V :=
  { s with
    occupied := s.occupied ++ [bucket]
    table := s.table.set bucket { key_value_addr := some key_value_addr, hash := hash } }

/-- The `iter` sequence of the hash map: for each bucket of `occupied`, in
order, the resolved key bytes, the value address, and the bucket index as
the unordered term id. -/
def iterEntries (s : TermHashMap V) : List (List Nat × Nat × Nat) :=
  s.occupied.map fun bucket =>
    let kv := slotAt s bucket
    let p := get_key_value s (kv.key_value_addr.getD 0)
    (p.1, p.2, bucket)

/-- Result of one `get_or_create` call: `ok termId valueAddr newState` for a
normal return (the `&mut V` is embedded as the value's arena address),
`assertFailed` for the `assert_eq!` panic branch, `fuelOut` when the probe
loop has not returned within the given fuel. -/
inductive GetResult (V : Type) where
  | ok (termId : Nat) (valueAddr : Nat) (s : TermHashMap V)
  | assertFailed
  | fuelOut

/-- The empty-slot branch of `get_or_create`: allocate the key bytes then the
value object back-to-back in the arena, assert the contiguity equation
`addr == key_bytes_ref.addr() + 2 + key_bytes.len()`, record the bucket, and
return the new term id together with the fresh value's address. -/
def insertNew (vSize : Nat) (withAddr : Nat → V) (s : TermHashMap V)
    (key_bytes : List Nat) (hash : Nat) (bucket : Nat) : GetResult V :=
  let rh := s.heap.allocate_and_set key_bytes
  let av := rh.2.allocate_object vSize withAddr
  if av.1 = rh.1 + 2 + key_bytes.length then
    .ok bucket av.1 (set_bucket { s with heap := av.2.2 } hash rh.1 bucket)
  else .assertFailed

/-- The probe loop of `get_or_create`, with explicit fuel: draw the next
candidate bucket; an empty slot triggers the insertion branch; a slot with
equal stored hash has its key bytes resolved and compared, returning the
existing entry on equality; otherwise probing continues. -/
def getOrCreateLoop (vSize : Nat) (withAddr : Nat → V) (s : TermHashMap V)
    (key_bytes : List Nat) (hash : Nat) : Nat → QuadraticProbing → GetResult V
  | 0, _ => .fuelOut
  | fuel + 1, probe =>
    let pb := probe.next_probe
    let bucket := pb.2
    let kv := slotAt s bucket
    match kv.key_value_addr with
    | none => insertNew vSize withAddr s key_bytes hash bucket
    | some ref =>
      if kv.hash = hash then
        let kvp := get_key_value s ref
        if kvp.1 = key_bytes then .ok bucket kvp.2 s
        else getOrCreateLoop vSize withAddr s key_bytes hash fuel pb.1
      else getOrCreateLoop vSize withAddr s key_bytes hash fuel pb.1

/-- `TermHashMap::get_or_create`: hash the key and run the probe loop from a
freshly computed `QuadraticProbing`. -/
def get_or_create (vSize : Nat) (withAddr : Nat → V) (s : TermHashMap V)
    (key : List Nat) (fuel : Nat) : GetResult V :=
  let hash := Murmur2.murmurhash2 key
  getOrCreateLoop vSize withAddr s key hash fuel (s.probe hash)

/-- Sequential execution of `get_or_create` over a list of keys, each call
with the given fuel; `none` if any call fails to return. -/
def runKeys (vSize : Nat) (withAddr : Nat → V) (fuel : Nat) :
    TermHashMap V → List (List Nat) → Option (TermHashMap V)
  | s, [] => some s
  | s, k :: ks =>
    match get_or_create vSize withAddr s k fuel with
    | .ok _ _ s2 => runKeys vSize withAddr fuel s2 ks
    | _ => none

/-- Candidate slot of the `n`-th probe: `(hash + n*n) & mask`. -/
def cand (hash mask n : Nat) : Nat := (hash + n * n) &&& mask

/-- Key bytes stored at a bucket, resolved through the arena. -/
def storedKey (s : TermHashMap V) (bucket : Nat) : List Nat :=
  s.heap.get_slice ((slotAt s bucket).key_value_addr.getD 0)

/-- Address of the value object of the term stored at a bucket. -/
def valueAddrAt (s : TermHashMap V) (bucket : Nat) : Nat :=
  (get_key_value s ((slotAt s bucket).key_value_addr.getD 0)).2

/-- The slot at `bucket` holds a term with stored hash `hash` whose resolved
key bytes are exactly `key`: the stopping condition of the probe loop for a
present key. -/
def slotMatches (s : TermHashMap V) (hash : Nat) (key : List Nat) (bucket : Nat) : Prop :=
  ∃ ref, (slotAt s bucket).key_value_addr = some ref ∧
    (slotAt s bucket).hash = hash ∧ s.heap.get_slice ref = key

/-- The slot at `bucket` neither stops the probe loop by being empty nor by
matching `(hash, key)`: probing passes over it. -/
def slotBlocked (s : TermHashMap V) (hash : Nat) (key : List Nat) (bucket : Nat) : Prop :=
  (slotAt s bucket).key_value_addr ≠ none ∧ ¬ slotMatches s hash key bucket

/-- The probe sequence for `(hash, key)` reaches bucket `b` at step `n`: the
slot there matches, and every earlier probe candidate is occupied by a
non-matching term. -/
def FindsAt (s : TermHashMap V) (hash : Nat) (key : List Nat) (n b : Nat) : Prop :=
  1 ≤ n ∧ cand hash s.mask n = b ∧ slotMatches s hash key b ∧
    ∀ i, 1 ≤ i → i < n → slotBlocked s hash key (cand hash s.mask i)

/-- The key has already been interned: some occupied bucket stores it. -/
def present (s : TermHashMap V) (key : List Nat) : Prop :=
  ∃ b ∈ s.occupied, storedKey s b = key

/-- Number of non-empty slots of the table. -/
def numOccupiedSlots (s : TermHashMap V) : Nat :=
  ((List.range s.table.length).filter
    fun b => (slotAt s b).key_value_addr.isSome).length

/-- Well-formedness invariant of a `TermHashMap` state, established by
`TermHashMap.new` and preserved by `get_or_create`. -/
structure MapWF (s : TermHashMap V) : Prop where
  len_eq : s.table.length = s.mask + 1
  refs_lt : ∀ b ref, (slotAt s b).key_value_addr = some ref →
    ref + 2 + (s.heap.get_slice ref).length ≤ s.heap.top
  occ_iff : ∀ b, b ∈ s.occupied ↔
    ((slotAt s b).key_value_addr ≠ none ∧ b < s.table.length)
  occ_nodup : s.occupied.Nodup
  hash_ok : ∀ b ∈ s.occupied,
    (slotAt s b).hash = Murmur2.murmurhash2 (storedKey s b)
  finds : ∀ b ∈ s.occupied,
    ∃ n, FindsAt s ((slotAt s b).hash) (storedKey s b) n b

/-- Term id component of an `ok` result (0 otherwise). -/
def okId : GetResult V → Nat
  | .ok i _ _ => i
  | _ => 0

/-- Value address component of an `ok` result (0 otherwise). -/
def okAddr : GetResult V → Nat
  | .ok _ a _ => a
  | _ => 0

/-- Resulting state of an `ok` result (the supplied default otherwise). -/
def okState (r : GetResult V) (d : TermHashMap V) : TermHashMap V :=
  match r with
  | .ok _ _ s => s
  | _ => d

/-- Explicit form of the state produced by the empty-slot branch of
`get_or_create` at `bucket`: the key bytes then the value object are bump
allocated in the arena, the slot receives `(some key_offset, hash)`, and the
bucket is appended to the occupancy order (proved equal to `insertNew`'s
result in `insertNew_eq`). -/
def afterInsert (vSize : Nat) (withAddr : Nat → V) (s : TermHashMap V)
    (key : List Nat) (hash bucket : Nat) : TermHashMap V :=
  { table := s.table.set bucket { key_value_addr := some s.heap.top, hash := hash }
    heap :=
      { top := s.heap.top + 2 + key.length + vSize
        strings := (s.heap.top, key) :: s.heap.strings
        values := (s.heap.top + 2 + key.length,
          withAddr (s.heap.top + 2 + key.length)) :: s.heap.values }
    mask := s.mask
    occupied := s.occupied ++ [bucket] }

/-- Witness fixture: an empty arena over value type `Nat`. -/
def emptyHeap : Heap Nat := { top := 0, strings := [], values := [] }

/-- Witness fixture: a one-slot table whose single slot is occupied by the
key `[5]`, used to exhibit the non-termination of probing on a full table. -/
def sFull : TermHashMap Nat :=
  { table := [{ key_value_addr := some 0, hash := Murmur2.murmurhash2 [5] }]
    heap := { top := 7, strings := [(0, [5])], values := [] }
    mask := 0
    occupied := [0] }


/-- The probing discipline of `get_or_create` as claimed: the returned term
id is the first candidate of the quadratic probe sequence
`(hash + i*i) & mask` for `i = 1, 2, ...` (the counter starts at 0 and is
incremented before each examination) whose slot is either empty or stores an
equal hash together with equal resolved key bytes; every earlier candidate
is occupied and fails the hash-and-key-bytes comparison. -/
def ProbeSpec (s : TermHashMap V) (key : List Nat) (fuel id : Nat) : Prop :=
  ∃ n, 1 ≤ n ∧ n ≤ fuel ∧
    id = (Murmur2.murmurhash2 key + n * n) &&& s.mask ∧
    (∀ i, 1 ≤ i → i < n →
      (slotAt s ((Murmur2.murmurhash2 key + i * i) &&& s.mask)).key_value_addr ≠ none ∧
      ¬ ((slotAt s ((Murmur2.murmurhash2 key + i * i) &&& s.mask)).hash
            = Murmur2.murmurhash2 key ∧
         s.heap.get_slice
           ((slotAt s ((Murmur2.murmurhash2 key + i * i) &&& s.mask)).key_value_addr.getD 0)
             = key)) ∧
    ((slotAt s ((Murmur2.murmurhash2 key + n * n) &&& s.mask)).key_value_addr = none ∨
      ((slotAt s ((Murmur2.murmurhash2 key + n * n) &&& s.mask)).hash
          = Murmur2.murmurhash2 key ∧
       s.heap.get_slice
         ((slotAt s ((Murmur2.murmurhash2 key + n * n) &&& s.mask)).key_value_addr.getD 0)
           = key))

/-- Witness fixture: a fresh 4-slot table over an empty arena. -/
def s0Ex : TermHashMap Nat := TermHashMap.new 2 emptyHeap

/-- Witness fixture: result of interning the key `[1]` in `s0Ex`. -/
def r1Ex : GetResult Nat := get_or_create 4 (fun a => a) s0Ex [1] 5

/-- Witness fixture: the state after interning `[1]` in `s0Ex`. -/
def s1Ex : TermHashMap Nat := okState r1Ex s0Ex

/-- Witness fixture: the state after additionally interning `[2]`. -/
def sRunEx : TermHashMap Nat := (runKeys 4 (fun a => a) 5 s1Ex [[2]]).getD s0Ex

/-- Witness fixture: the state after interning `[1]` then `[2]` from fresh. -/
def sPairEx : TermHashMap Nat :=
  (runKeys 4 (fun a => a) 5 (TermHashMap.new 2 emptyHeap) [[1], [2]]).getD s0Ex

/-- Index of the first occurrence of a key in a list of keys (length of the
list when absent); used to state "K1 was first inserted before K2". -/
def firstIdx (k : List Nat) : List (List Nat) → Nat
  | [] => 0
  | k2 :: ks => if k2 = k then 0 else firstIdx k ks + 1

open Murmur2

/-! ## Lemmas about the hash function -/

theorem murmurBody_decomp (n : Nat) : ∀ key : List Nat, key.length ≤ n → ∀ h : Nat,
    murmurBody h key =
      if key.length % 4 = 0 then wordsHash h key
      else u32 ((wordsHash h key ^^^ msbFold (key.drop (4 * (key.length / 4)))) * M) := by
  induction n with
  | zero =>
    intro key hlen h
    have : key = [] := List.eq_nil_of_length_eq_zero (Nat.le_zero.mp hlen)
    subst this
    simp [murmurBody, wordsHash]
  | succ n ih =>
    intro key hlen h
    match key with
    | [] => simp [murmurBody, wordsHash]
    | [b0] => simp [murmurBody, wordsHash, msbFold]
    | [b0, b1] => simp [murmurBody, wordsHash, msbFold, Nat.xor_assoc]
    | [b0, b1, b2] => simp [murmurBody, wordsHash, msbFold, Nat.xor_assoc]
    | b0 :: b1 :: b2 :: b3 :: rest =>
      have hr : rest.length ≤ n := by
        simp only [List.length_cons] at hlen
        omega
      have hrec := ih rest hr (mixWord h (leWord b0 b1 b2 b3))
      have hlen4 : (b0 :: b1 :: b2 :: b3 :: rest).length = rest.length + 4 := by simp
      have hmod : (rest.length + 4) % 4 = rest.length % 4 := Nat.add_mod_right _ _
      have hdiv : 4 * ((rest.length + 4) / 4) = 4 * (rest.length / 4) + 4 := by omega
      have hdrop : (b0 :: b1 :: b2 :: b3 :: rest).drop (4 * ((rest.length + 4) / 4))
          = rest.drop (4 * (rest.length / 4)) := by
        rw [hdiv]
        have h4 : 4 * (rest.length / 4) + 4
            = 4 * (rest.length / 4) + 1 + 1 + 1 + 1 := by omega
        rw [h4]
        simp [List.drop_succ_cons]
      simp only [murmurBody, wordsHash, hlen4, hmod, hdrop]
      exact hrec

/-- C6: the hash function is deterministic (it is a pure function of the
input bytes) and matches the regression-pinned 32-bit reference constants on
the test vectors "", "a", "ab", "abc", "abcd", "abcde". -/
theorem murmur_reference_vectors :
    murmurhash2 [] = 3632506080 ∧
    murmurhash2 [97] = 455683869 ∧
    murmurhash2 [97, 98] = 2448092234 ∧
    murmurhash2 [97, 98, 99] = 2066295634 ∧
    murmurhash2 [97, 98, 99, 100] = 2588571162 ∧
    murmurhash2 [97, 98, 99, 100, 101] = 2988696942 :=
  ⟨rfl, rfl, rfl, rfl, rfl, rfl⟩

/-- C7: for an input whose length is not a multiple of 4, the hash before
the final avalanche is the word-mixed hash with the 1 to 3 trailing bytes
XORed in most-significant-byte-first (index 2 shifted left 16, index 1
shifted left 8, index 0 unshifted) followed by exactly one multiply by
`M = 0x5bd1e995`; for a length that is a multiple of 4 no such finalization
multiply occurs, the avalanche acting directly on the word-mixed hash. -/
theorem murmur_tail_fold (key : List Nat) :
    (key.length % 4 ≠ 0 → ∀ h : Nat, murmurBody h key =
       u32 ((wordsHash h key ^^^ msbFold (key.drop (4 * (key.length / 4)))) * M)) ∧
    (key.length % 4 = 0 → ∀ h : Nat, murmurBody h key = wordsHash h key) ∧
    murmurhash2 key = avalanche (murmurBody (SEED ^^^ u32 key.length) key) := by
  refine ⟨?_, ?_, rfl⟩ <;> intro hm h <;>
    have hd := murmurBody_decomp key.length key (le_refl _) h
  · rw [hd, if_neg hm]
  · rw [hd, if_pos hm]

/-- Witness for C7 at the 5-byte input "abcde" (trailing byte 101). -/
theorem murmur_tail_fold_check :
    [97, 98, 99, 100, 101].length % 4 ≠ 0 ∧
    murmurBody 0 [97, 98, 99, 100, 101] =
      u32 ((wordsHash 0 [97, 98, 99, 100, 101] ^^^
        msbFold ([97, 98, 99, 100, 101].drop
          (4 * ([97, 98, 99, 100, 101].length / 4)))) * M) :=
  ⟨by decide, (murmur_tail_fold [97, 98, 99, 100, 101]).1 (by decide) 0⟩

/-! ## Lemmas about the budget splitter -/

theorem compute_table_size_mono {a b : Nat} (h : a ≤ b) :
    compute_table_size a ≤ compute_table_size b := by
  simp only [compute_table_size, Nat.shiftLeft_eq, one_mul]
  exact Nat.mul_le_mul_right _ (Nat.pow_le_pow_right (by norm_num) h)

theorem findTableBits_none_of_ge (limit b : Nat)
    (h : ¬ compute_table_size b < limit) :
    ∀ fuel, findTableBits limit fuel b = none := by
  intro fuel
  cases fuel with
  | zero => rfl
  | succ f => simp [findTableBits, h]

theorem findTableBits_lt_of_none (limit : Nat) : ∀ fuel b, 1 ≤ fuel →
    findTableBits limit fuel b = none → ¬ compute_table_size b < limit := by
  intro fuel b hf hnone
  cases fuel with
  | zero => omega
  | succ f =>
    intro hlt
    simp only [findTableBits, if_pos hlt] at hnone
    cases hrec : findTableBits limit f (b + 1) <;> simp [hrec] at hnone

theorem findTableBits_sound (limit : Nat) : ∀ fuel b B,
    limit ≤ compute_table_size (b + fuel) →
    findTableBits limit fuel b = some B →
    b ≤ B ∧ compute_table_size B < limit ∧ ¬ compute_table_size (B + 1) < limit := by
  intro fuel
  induction fuel with
  | zero => intro b B _ hsome; simp [findTableBits] at hsome
  | succ f ih =>
    intro b B hlim hsome
    by_cases hp : compute_table_size b < limit
    · simp only [findTableBits, if_pos hp] at hsome
      cases hrec : findTableBits limit f (b + 1) with
      | some b2 =>
        rw [hrec] at hsome
        obtain rfl : b2 = B := Option.some.inj hsome
        have hlim2 : limit ≤ compute_table_size (b + 1 + f) := by
          rw [show b + 1 + f = b + (f + 1) by omega]
          exact hlim
        have hres := ih (b + 1) b2 hlim2 hrec
        exact ⟨by omega, hres.2⟩
      | none =>
        rw [hrec] at hsome
        obtain rfl : b = B := Option.some.inj hsome
        refine ⟨le_refl _, hp, ?_⟩
        cases f with
        | zero =>
          have : limit ≤ compute_table_size (b + 1) := by
            rw [show b + 1 = b + (0 + 1) by omega]
            exact hlim
          omega
        | succ f2 =>
          exact findTableBits_lt_of_none limit (f2 + 1) (b + 1) (by omega) hrec
    · rw [findTableBits_none_of_ge limit b hp (f + 1)] at hsome
      exact Option.noConfusion hsome

theorem findTableBits_isSome (limit fuel b : Nat)
    (hp : compute_table_size b < limit) (hf : 1 ≤ fuel) :
    (findTableBits limit fuel b).isSome := by
  cases fuel with
  | zero => omega
  | succ f =>
    simp only [findTableBits, if_pos hp]
    cases hrec : findTableBits limit f (b + 1) <;> simp

/-- C4: `split_memory budget` returns `(arena_bytes, table_bits)` where
`table_bits` is the largest `B ≥ 1` with `slot_size * 2^B < budget / 3` and
`arena_bytes = budget - slot_size * 2^B`; it panics (modelled as `none`)
exactly when no such `B ≥ 1` exists; and it returns the regression-pinned
pairs for budgets 100000, 1000000, 10000000. -/
theorem split_memory_spec :
    (∀ budget arena bits, split_memory budget = some (arena, bits) →
       1 ≤ bits ∧ compute_table_size bits < budget / 3 ∧
       (∀ B, 1 ≤ B → compute_table_size B < budget / 3 → B ≤ bits) ∧
       arena = budget - compute_table_size bits) ∧
    (∀ budget, split_memory budget = none ↔
       ¬ ∃ B, 1 ≤ B ∧ compute_table_size B < budget / 3) ∧
    split_memory 100000 = some (67232, 12) ∧
    split_memory 1000000 = some (737856, 15) ∧
    split_memory 10000000 = some (7902848, 18) := by
  have hbig : ∀ budget : Nat, budget / 3 ≤ compute_table_size (1 + budget) := by
    intro budget
    have h1 : budget < 2 ^ budget := Nat.lt_two_pow budget
    have h2 : (2 : Nat) ^ budget ≤ 2 ^ (1 + budget) :=
      Nat.pow_le_pow_right (by norm_num) (by omega)
    have h3 : compute_table_size (1 + budget) = 2 ^ (1 + budget) * 8 := by
      simp [compute_table_size, Nat.shiftLeft_eq, keyValueSize]
    calc budget / 3 ≤ budget := Nat.div_le_self _ _
      _ ≤ 2 ^ budget := le_of_lt h1
      _ ≤ 2 ^ (1 + budget) := h2
      _ ≤ 2 ^ (1 + budget) * 8 := Nat.le_mul_of_pos_right _ (by norm_num)
      _ = compute_table_size (1 + budget) := h3.symm
  refine ⟨?_, ?_, by decide, by decide, by decide⟩
  · intro budget arena bits hsome
    simp only [split_memory] at hsome
    cases hfind : findTableBits (budget / 3) budget 1 with
    | none => rw [hfind] at hsome; exact Option.noConfusion hsome
    | some bits2 =>
      rw [hfind] at hsome
      obtain ⟨h1, h2⟩ := Prod.mk.inj (Option.some.inj hsome)
      subst h2
      subst h1
      have hsound := findTableBits_sound (budget / 3) budget 1 bits2 (hbig budget) hfind
      refine ⟨hsound.1, hsound.2.1, ?_, rfl⟩
      intro B hB1 hBp
      by_contra hgt
      have hle : bits2 + 1 ≤ B := by omega
      exact hsound.2.2 (lt_of_le_of_lt (compute_table_size_mono hle) hBp)
  · intro budget
    constructor
    · intro hnone hex
      obtain ⟨B, hB1, hBp⟩ := hex
      have hp1 : compute_table_size 1 < budget / 3 :=
        lt_of_le_of_lt (compute_table_size_mono hB1) hBp
      have hc1 : compute_table_size 1 = 16 := by decide
      have hfuel : 1 ≤ budget := by omega
      have hsome := findTableBits_isSome (budget / 3) budget 1 hp1 hfuel
      simp only [split_memory] at hnone
      cases hfind : findTableBits (budget / 3) budget 1 with
      | none => rw [hfind] at hsome; exact Bool.noConfusion hsome
      | some bits2 => rw [hfind] at hnone; exact Option.noConfusion hnone
    · intro hnot
      have hnp1 : ¬ compute_table_size 1 < budget / 3 := fun hc => hnot ⟨1, le_refl 1, hc⟩
      simp only [split_memory]
      rw [findTableBits_none_of_ge (budget / 3) 1 hnp1 budget]

/-- Witness for C4 at budget 100000: the returned pair satisfies the stated
characterization. -/
theorem split_memory_spec_check :
    1 ≤ 12 ∧ compute_table_size 12 < 100000 / 3 ∧
    67232 = 100000 - compute_table_size 12 := by
  have h := split_memory_spec.1 100000 67232 12 (by decide)
  exact ⟨h.1, h.2.1, h.2.2.2⟩

/-! ## Lemmas about the probe loop -/

theorem cand_le_mask (hash mask n : Nat) : cand hash mask n ≤ mask :=
  Nat.and_le_right

/-- One unfolding of the probe loop at positive fuel, with the probe state
made explicit: the candidate examined is `(hash + (j+1)*(j+1)) & mask`. -/
theorem loop_succ (vS : Nat) (wA : Nat → V) (s : TermHashMap V) (key : List Nat)
    (hash fuel j : Nat) :
    getOrCreateLoop vS wA s key hash (fuel + 1) ⟨hash, j, s.mask⟩ =
      (match (slotAt s (cand hash s.mask (j + 1))).key_value_addr with
       | none => insertNew vS wA s key hash (cand hash s.mask (j + 1))
       | some ref =>
         if (slotAt s (cand hash s.mask (j + 1))).hash = hash then
           if (get_key_value s ref).1 = key then
             .ok (cand hash s.mask (j + 1)) (get_key_value s ref).2 s
           else getOrCreateLoop vS wA s key hash fuel ⟨hash, j + 1, s.mask⟩
         else getOrCreateLoop vS wA s key hash fuel ⟨hash, j + 1, s.mask⟩) := rfl

/-- Forward characterization of the probe loop: a normal return happens at
the first probe step whose candidate slot is either empty (insertion) or a
hash-and-key match (lookup); every earlier candidate is occupied and
non-matching. -/
theorem loop_char (vS : Nat) (wA : Nat → V) (s : TermHashMap V) (key : List Nat)
    (hash : Nat) : ∀ fuel j r,
    getOrCreateLoop vS wA s key hash fuel ⟨hash, j, s.mask⟩ = r →
    r = .fuelOut ∨
    ∃ n, j < n ∧ n ≤ j + fuel ∧
      (∀ i, j < i → i < n → slotBlocked s hash key (cand hash s.mask i)) ∧
      (((slotAt s (cand hash s.mask n)).key_value_addr = none ∧
          r = insertNew vS wA s key hash (cand hash s.mask n)) ∨
        (slotMatches s hash key (cand hash s.mask n) ∧
          r = .ok (cand hash s.mask n) (valueAddrAt s (cand hash s.mask n)) s)) := by
  intro fuel
  induction fuel with
  | zero =>
    intro j r hr
    exact Or.inl hr.symm
  | succ fuel ih =>
    intro j r hr
    rw [loop_succ] at hr
    rcases hslot : (slotAt s (cand hash s.mask (j + 1))).key_value_addr with _ | ref
    · simp only [hslot] at hr
      refine Or.inr ⟨j + 1, by omega, by omega, by omega, Or.inl ⟨hslot, hr.symm⟩⟩
    · simp only [hslot] at hr
      by_cases hh : (slotAt s (cand hash s.mask (j + 1))).hash = hash
      · by_cases hk : (get_key_value s ref).1 = key
        · rw [if_pos hh, if_pos hk] at hr
          refine Or.inr ⟨j + 1, by omega, by omega, by omega, Or.inr ⟨⟨ref, hslot, hh, hk⟩, ?_⟩⟩
          rw [← hr]
          simp [valueAddrAt, hslot]
        · rw [if_pos hh, if_neg hk] at hr
          rcases ih (j + 1) r hr with hout | ⟨n, hn1, hn2, hblock, hstop⟩
          · exact Or.inl hout
          · refine Or.inr ⟨n, by omega, by omega, ?_, hstop⟩
            intro i hi1 hi2
            rcases Nat.lt_or_ge (j + 1) i with hgt | hle
            · exact hblock i hgt hi2
            · have : i = j + 1 := by omega
              subst this
              refine ⟨by simp [hslot], ?_⟩
              rintro ⟨ref2, href2, hh2, hk2⟩
              rw [hslot] at href2
              obtain rfl : ref = ref2 := Option.some.inj href2
              exact hk hk2
      · rw [if_neg hh] at hr
        rcases ih (j + 1) r hr with hout | ⟨n, hn1, hn2, hblock, hstop⟩
        · exact Or.inl hout
        · refine Or.inr ⟨n, by omega, by omega, ?_, hstop⟩
          intro i hi1 hi2
          rcases Nat.lt_or_ge (j + 1) i with hgt | hle
          · exact hblock i hgt hi2
          · have : i = j + 1 := by omega
            subst this
            refine ⟨by simp [hslot], ?_⟩
            rintro ⟨ref2, href2, hh2, hk2⟩
            exact hh hh2

/-- Completeness of the probe loop for a stored key: if the probe sequence
reaches a matching slot at step `n` through occupied non-matching slots, the
loop returns that slot's term id and value address, leaving the state
untouched, for any fuel of at least `n` steps. -/
theorem loop_finds (vS : Nat) (wA : Nat → V) (s : TermHashMap V) (key : List Nat)
    (hash : Nat) : ∀ fuel j n b,
    slotMatches s hash key b → cand hash s.mask n = b →
    (∀ i, j < i → i < n → slotBlocked s hash key (cand hash s.mask i)) →
    j < n → n ≤ j + fuel →
    getOrCreateLoop vS wA s key hash fuel ⟨hash, j, s.mask⟩ =
      .ok b (valueAddrAt s b) s := by
  intro fuel
  induction fuel with
  | zero => intro j n b _ _ _ hj hfuel; omega
  | succ fuel ih =>
    intro j n b hm hc hblock hj hfuel
    rw [loop_succ]
    rcases Nat.lt_or_ge (j + 1) n with hlt | hge
    · obtain ⟨hne, hnm⟩ := hblock (j + 1) (by omega) hlt
      obtain ⟨ref, href⟩ := Option.ne_none_iff_exists'.mp hne
      simp only [href]
      by_cases hh : (slotAt s (cand hash s.mask (j + 1))).hash = hash
      · by_cases hk : (get_key_value s ref).1 = key
        · exact absurd ⟨ref, href, hh, by simpa [get_key_value, Heap.get_slice] using hk⟩ hnm
        · rw [if_pos hh, if_neg hk]
          exact ih (j + 1) n b hm hc (fun i h1 h2 => hblock i (by omega) h2) hlt (by omega)
      · rw [if_neg hh]
        exact ih (j + 1) n b hm hc (fun i h1 h2 => hblock i (by omega) h2) hlt (by omega)
    · have hn : n = j + 1 := by omega
      subst hn
      obtain ⟨ref, href, hh, hk⟩ := hm
      rw [hc]
      simp only [href]
      rw [if_pos hh, if_pos (show (get_key_value s ref).1 = key from hk)]
      simp [valueAddrAt, href]

/-! ## Arena and insertion-branch lemmas -/

theorem lookup_cons_self {β : Type _} (k : Nat) (v : β) (l : List (Nat × β)) :
    List.lookup k ((k, v) :: l) = some v := by
  simp [List.lookup]

theorem lookup_cons_ne {β : Type _} {k a : Nat} (v : β) (l : List (Nat × β))
    (h : a ≠ k) : List.lookup a ((k, v) :: l) = List.lookup a l := by
  simp only [List.lookup, beq_eq_false_iff_ne.mpr h]

/-- The empty-slot branch never takes the assertion-failure path: the two
back-to-back bump allocations are contiguous by the arena contract, so the
asserted address equation holds and the branch returns the fresh entry. -/
theorem insertNew_eq (vS : Nat) (wA : Nat → V) (s : TermHashMap V)
    (key : List Nat) (hash bucket : Nat) :
    insertNew vS wA s key hash bucket =
      .ok bucket (s.heap.top + 2 + key.length) (afterInsert vS wA s key hash bucket) := by
  simp [insertNew, afterInsert, Heap.allocate_and_set, Heap.allocate_object, set_bucket]

theorem loop_ne_assertFailed (vS : Nat) (wA : Nat → V) (s : TermHashMap V)
    (key : List Nat) (hash : Nat) :
    ∀ fuel probe, getOrCreateLoop vS wA s key hash fuel probe ≠ .assertFailed := by
  intro fuel
  induction fuel with
  | zero => intro probe h; exact GetResult.noConfusion h
  | succ fuel ih =>
    intro probe
    simp only [getOrCreateLoop]
    rcases hslot : (slotAt s probe.next_probe.2).key_value_addr with _ | ref
    · simp only [hslot, insertNew_eq]
      intro h
      exact GetResult.noConfusion h
    · simp only [hslot]
      split_ifs with hh hk
      · intro h; exact GetResult.noConfusion h
      · exact ih _
      · exact ih _

/-- C8: on a first insertion the key bytes and then the value object are
allocated back-to-back, and the asserted contiguity equation
`addr = key_offset + 2 + key_len` holds by the arena's bump-allocation
contract, so the assertion's failure branch is unreachable for every state,
key and fuel; moreover `get_key_value` resolves an existing key's value with
the same `offset + 2 + key_len` formula. -/
theorem get_or_create_contiguity : ∀ (V : Type) (vS : Nat) (wA : Nat → V),
    (∀ (s : TermHashMap V) (key : List Nat) (fuel : Nat),
       get_or_create vS wA s key fuel ≠ .assertFailed) ∧
    (∀ (h : Heap V) (byts : List Nat),
       ((h.allocate_and_set byts).2.allocate_object vS wA).1
         = (h.allocate_and_set byts).1 + 2 + byts.length) ∧
    (∀ (s : TermHashMap V) (ref : Nat),
       get_key_value s ref
         = (s.heap.get_slice ref, ref + 2 + (s.heap.get_slice ref).length)) :=
  fun V vS wA =>
    ⟨fun s key fuel => loop_ne_assertFailed vS wA s key (Murmur2.murmurhash2 key) fuel
        (s.probe (Murmur2.murmurhash2 key)),
     fun h byts => rfl, fun s ref => rfl⟩

/-- C9: on a table in which every slot is occupied and no slot holds a
hash-and-key match for the queried key, the probe loop of `get_or_create`
never returns, for any number of steps (there is no "table full" signal:
`GetResult` has no such outcome and the loop runs out of any finite fuel). -/
theorem get_or_create_full_no_match (V : Type) (vS : Nat) (wA : Nat → V)
    (s : TermHashMap V) (key : List Nat)
    (hlen : s.table.length = s.mask + 1)
    (hfull : ∀ b, b < s.table.length → (slotAt s b).key_value_addr ≠ none)
    (hnom : ∀ b, b < s.table.length → ¬ slotMatches s (Murmur2.murmurhash2 key) key b) :
    ∀ fuel, get_or_create vS wA s key fuel = .fuelOut := by
  intro fuel
  rcases loop_char vS wA s key (Murmur2.murmurhash2 key) fuel 0
      (get_or_create vS wA s key fuel) rfl with h | ⟨n, hn1, hn2, hblock, hstop⟩
  · exact h
  · exfalso
    have hc := cand_le_mask (Murmur2.murmurhash2 key) s.mask n
    have hlt : cand (Murmur2.murmurhash2 key) s.mask n < s.table.length := by omega
    rcases hstop with ⟨hempty, _⟩ | ⟨hm, _⟩
    · exact hfull _ hlt hempty
    · exact hnom _ hlt hm

/-- Witness for C9: on the full one-slot table `sFull` holding key `[5]`,
probing for the absent key `[6]` returns no result within 3 steps (and, by
the theorem, within any number of steps). -/
theorem get_or_create_full_no_match_check :
    get_or_create 4 (fun a => a) sFull [6] 3 = .fuelOut := by
  refine get_or_create_full_no_match Nat 4 (fun a => a) sFull [6] rfl (by decide) ?_ 3
  intro b hb
  have hb0 : b = 0 := by
    simp [sFull] at hb
    exact hb
  subst hb0
  rintro ⟨ref, href, hh, hk⟩
  have hs0 : (slotAt sFull 0).key_value_addr = some 0 := rfl
  rw [hs0] at href
  obtain rfl : ref = 0 := (Option.some.inj href).symm
  have hg : sFull.heap.get_slice 0 = [5] := rfl
  rw [hg] at hk
  exact absurd hk (by decide)

/-! ## Preservation lemmas for an insertion step -/

theorem slotAt_afterInsert_ne (vS : Nat) (wA : Nat → V) (s : TermHashMap V)
    (key : List Nat) (hash bucket b : Nat) (hne : b ≠ bucket) :
    slotAt (afterInsert vS wA s key hash bucket) b = slotAt s b := by
  simp only [slotAt, afterInsert]
  rw [List.getD_eq_getElem?_getD, List.getD_eq_getElem?_getD,
    List.getElem?_set_ne (Ne.symm hne)]

theorem slotAt_afterInsert_self (vS : Nat) (wA : Nat → V) (s : TermHashMap V)
    (key : List Nat) (hash bucket : Nat) (hb : bucket < s.table.length) :
    slotAt (afterInsert vS wA s key hash bucket) bucket
      = { key_value_addr := some s.heap.top, hash := hash } := by
  simp only [slotAt, afterInsert]
  rw [List.getD_eq_getElem?_getD]
  simp [List.getElem?_set_self', hb]

theorem get_slice_afterInsert_new (vS : Nat) (wA : Nat → V) (s : TermHashMap V)
    (key : List Nat) (hash bucket : Nat) :
    (afterInsert vS wA s key hash bucket).heap.get_slice s.heap.top = key := by
  simp [afterInsert, Heap.get_slice, lookup_cons_self]

theorem get_slice_afterInsert_old (vS : Nat) (wA : Nat → V) (s : TermHashMap V)
    (key : List Nat) (hash bucket ref : Nat) (hne : ref ≠ s.heap.top) :
    (afterInsert vS wA s key hash bucket).heap.get_slice ref
      = s.heap.get_slice ref := by
  simp only [afterInsert, Heap.get_slice]
  rw [lookup_cons_ne _ _ hne]

theorem occ_ref_lt (s : TermHashMap V) (hinv : MapWF s) (b : Nat)
    (hb : b ∈ s.occupied) :
    ∃ ref, (slotAt s b).key_value_addr = some ref ∧ ref < s.heap.top := by
  obtain ⟨hne, _⟩ := (hinv.occ_iff b).mp hb
  obtain ⟨ref, href⟩ := Option.ne_none_iff_exists'.mp hne
  refine ⟨ref, href, ?_⟩
  have := hinv.refs_lt b ref href
  omega

theorem slotMatches_afterInsert_of (vS : Nat) (wA : Nat → V) (s : TermHashMap V)
    (key : List Nat) (hash bucket : Nat) (hinv : MapWF s)
    (hempty : (slotAt s bucket).key_value_addr = none)
    {hsh : Nat} {k2 : List Nat} {b : Nat} (hm : slotMatches s hsh k2 b) :
    slotMatches (afterInsert vS wA s key hash bucket) hsh k2 b := by
  obtain ⟨ref, href, hh, hk⟩ := hm
  have hbne : b ≠ bucket := by
    intro he
    rw [he, hempty] at href
    exact Option.noConfusion href
  have hslot := slotAt_afterInsert_ne vS wA s key hash bucket b hbne
  have hlt : ref < s.heap.top := by
    have := hinv.refs_lt b ref href
    omega
  refine ⟨ref, ?_, ?_, ?_⟩
  · rw [hslot]; exact href
  · rw [hslot]; exact hh
  · rw [get_slice_afterInsert_old vS wA s key hash bucket ref (by omega)]
    exact hk

theorem slotMatches_of_afterInsert (vS : Nat) (wA : Nat → V) (s : TermHashMap V)
    (key : List Nat) (hash bucket : Nat) (hinv : MapWF s)
    {hsh : Nat} {k2 : List Nat} {b : Nat} (hbne : b ≠ bucket)
    (hm : slotMatches (afterInsert vS wA s key hash bucket) hsh k2 b) :
    slotMatches s hsh k2 b := by
  obtain ⟨ref, href, hh, hk⟩ := hm
  rw [slotAt_afterInsert_ne vS wA s key hash bucket b hbne] at href hh
  have hlt : ref < s.heap.top := by
    have := hinv.refs_lt b ref href
    omega
  rw [get_slice_afterInsert_old vS wA s key hash bucket ref (by omega)] at hk
  exact ⟨ref, href, hh, hk⟩

theorem slotBlocked_afterInsert (vS : Nat) (wA : Nat → V) (s : TermHashMap V)
    (key : List Nat) (hash bucket : Nat) (hinv : MapWF s)
    (hempty : (slotAt s bucket).key_value_addr = none)
    {hsh : Nat} {k2 : List Nat} {b : Nat} (hb : slotBlocked s hsh k2 b) :
    slotBlocked (afterInsert vS wA s key hash bucket) hsh k2 b := by
  obtain ⟨hne, hnm⟩ := hb
  have hbne : b ≠ bucket := fun he => hne (he ▸ hempty)
  constructor
  · rw [slotAt_afterInsert_ne vS wA s key hash bucket b hbne]
    exact hne
  · intro hm
    exact hnm (slotMatches_of_afterInsert vS wA s key hash bucket hinv hbne hm)

theorem FindsAt_afterInsert (vS : Nat) (wA : Nat → V) (s : TermHashMap V)
    (key : List Nat) (hash bucket : Nat) (hinv : MapWF s)
    (hempty : (slotAt s bucket).key_value_addr = none)
    {hsh : Nat} {k2 : List Nat} {n b : Nat} (hf : FindsAt s hsh k2 n b) :
    FindsAt (afterInsert vS wA s key hash bucket) hsh k2 n b := by
  obtain ⟨hn1, hc, hm, hblock⟩ := hf
  refine ⟨hn1, hc, slotMatches_afterInsert_of vS wA s key hash bucket hinv hempty hm, ?_⟩
  intro i h1 h2
  exact slotBlocked_afterInsert vS wA s key hash bucket hinv hempty (hblock i h1 h2)

theorem storedKey_afterInsert_occ (vS : Nat) (wA : Nat → V) (s : TermHashMap V)
    (key : List Nat) (hash bucket : Nat) (hinv : MapWF s)
    (hempty : (slotAt s bucket).key_value_addr = none)
    {b : Nat} (hb : b ∈ s.occupied) :
    storedKey (afterInsert vS wA s key hash bucket) b = storedKey s b ∧
      slotAt (afterInsert vS wA s key hash bucket) b = slotAt s b := by
  obtain ⟨ref, href, hlt⟩ := occ_ref_lt s hinv b hb
  have hbne : b ≠ bucket := by
    intro he
    rw [he, hempty] at href
    exact Option.noConfusion href
  have hslot := slotAt_afterInsert_ne vS wA s key hash bucket b hbne
  refine ⟨?_, hslot⟩
  simp only [storedKey, hslot, href, Option.getD_some]
  exact get_slice_afterInsert_old vS wA s key hash bucket ref (by omega)

theorem storedKey_afterInsert_self (vS : Nat) (wA : Nat → V) (s : TermHashMap V)
    (key : List Nat) (hash bucket : Nat) (hb : bucket < s.table.length) :
    storedKey (afterInsert vS wA s key hash bucket) bucket = key := by
  simp only [storedKey, slotAt_afterInsert_self vS wA s key hash bucket hb,
    Option.getD_some]
  exact get_slice_afterInsert_new vS wA s key hash bucket

theorem valueAddrAt_eq (s : TermHashMap V) (b : Nat) :
    valueAddrAt s b = ((slotAt s b).key_value_addr.getD 0) + 2 + (storedKey s b).length := rfl

theorem valueAddrAt_afterInsert_self (vS : Nat) (wA : Nat → V) (s : TermHashMap V)
    (key : List Nat) (hash bucket : Nat) (hb : bucket < s.table.length) :
    valueAddrAt (afterInsert vS wA s key hash bucket) bucket
      = s.heap.top + 2 + key.length := by
  rw [valueAddrAt_eq, storedKey_afterInsert_self vS wA s key hash bucket hb,
    slotAt_afterInsert_self vS wA s key hash bucket hb]
  rfl

theorem MapWF_afterInsert (vS : Nat) (wA : Nat → V) (s : TermHashMap V)
    (key : List Nat) (hash bucket n : Nat) (hinv : MapWF s)
    (hempty : (slotAt s bucket).key_value_addr = none)
    (hcand : cand hash s.mask n = bucket) (hn1 : 1 ≤ n)
    (hblock : ∀ i, 1 ≤ i → i < n → slotBlocked s hash key (cand hash s.mask i))
    (hhash : hash = Murmur2.murmurhash2 key) :
    MapWF (afterInsert vS wA s key hash bucket) := by
  have hb_lt : bucket < s.table.length := by
    have h1 := cand_le_mask hash s.mask n
    have h2 := hinv.len_eq
    omega
  have hlen2 : (afterInsert vS wA s key hash bucket).table.length = s.table.length := by
    simp [afterInsert]
  have hbucket_notmem : bucket ∉ s.occupied := by
    intro hmem
    obtain ⟨hne, _⟩ := (hinv.occ_iff bucket).mp hmem
    exact hne hempty
  constructor
  · rw [hlen2]
    exact hinv.len_eq
  · intro b ref href
    by_cases hbe : b = bucket
    · subst hbe
      rw [slotAt_afterInsert_self vS wA s key hash b hb_lt] at href
      obtain rfl : s.heap.top = ref := Option.some.inj href
      rw [get_slice_afterInsert_new vS wA s key hash b]
      show s.heap.top + 2 + key.length ≤ s.heap.top + 2 + key.length + vS
      omega
    · rw [slotAt_afterInsert_ne vS wA s key hash bucket b hbe] at href
      have hold := hinv.refs_lt b ref href
      have hne_top : ref ≠ s.heap.top := by omega
      rw [get_slice_afterInsert_old vS wA s key hash bucket ref hne_top]
      have htop2 : (afterInsert vS wA s key hash bucket).heap.top
          = s.heap.top + 2 + key.length + vS := rfl
      omega
  · intro b
    show b ∈ s.occupied ++ [bucket] ↔ _
    constructor
    · intro hmem
      rcases List.mem_append.mp hmem with hold | hbnew
      · obtain ⟨hne, hlt⟩ := (hinv.occ_iff b).mp hold
        have hbne : b ≠ bucket := fun he => hne (he ▸ hempty)
        rw [slotAt_afterInsert_ne vS wA s key hash bucket b hbne, hlen2]
        exact ⟨hne, hlt⟩
      · have hbb : b = bucket := by simpa using hbnew
        subst hbb
        rw [slotAt_afterInsert_self vS wA s key hash b hb_lt, hlen2]
        exact ⟨by simp, hb_lt⟩
    · rintro ⟨hne, hlt⟩
      by_cases hbe : b = bucket
      · subst hbe
        exact List.mem_append.mpr (Or.inr (by simp))
      · rw [slotAt_afterInsert_ne vS wA s key hash bucket b hbe] at hne
        rw [hlen2] at hlt
        exact List.mem_append.mpr (Or.inl ((hinv.occ_iff b).mpr ⟨hne, hlt⟩))
  · show (s.occupied ++ [bucket]).Nodup
    refine List.nodup_append.mpr ⟨hinv.occ_nodup, List.nodup_singleton bucket, ?_⟩
    intro x hx hx2
    have : x = bucket := by simpa using hx2
    subst this
    exact hbucket_notmem hx
  · intro b hb
    rcases List.mem_append.mp hb with hold | hbnew
    · obtain ⟨hsk, hslot⟩ := storedKey_afterInsert_occ vS wA s key hash bucket hinv hempty hold
      rw [hslot, hsk]
      exact hinv.hash_ok b hold
    · have hbb : b = bucket := by simpa using hbnew
      subst hbb
      rw [slotAt_afterInsert_self vS wA s key hash b hb_lt,
        storedKey_afterInsert_self vS wA s key hash b hb_lt]
      exact hhash
  · intro b hb
    rcases List.mem_append.mp hb with hold | hbnew
    · obtain ⟨n2, hf⟩ := hinv.finds b hold
      obtain ⟨hsk, hslot⟩ := storedKey_afterInsert_occ vS wA s key hash bucket hinv hempty hold
      refine ⟨n2, ?_⟩
      rw [hslot, hsk]
      exact FindsAt_afterInsert vS wA s key hash bucket hinv hempty hf
    · have hbb : b = bucket := by simpa using hbnew
      subst hbb
      refine ⟨n, ?_⟩
      rw [slotAt_afterInsert_self vS wA s key hash b hb_lt,
        storedKey_afterInsert_self vS wA s key hash b hb_lt]
      refine ⟨hn1, hcand, ?_, ?_⟩
      · refine ⟨s.heap.top, ?_, ?_, get_slice_afterInsert_new vS wA s key hash b⟩
        · rw [slotAt_afterInsert_self vS wA s key hash b hb_lt]
        · rw [slotAt_afterInsert_self vS wA s key hash b hb_lt]
      · intro i h1 h2
        exact slotBlocked_afterInsert vS wA s key hash b hinv hempty (hblock i h1 h2)

theorem afterInsert_pack (vS : Nat) (wA : Nat → V) (s : TermHashMap V)
    (key : List Nat) (bucket n : Nat) (hinv : MapWF s)
    (hempty : (slotAt s bucket).key_value_addr = none)
    (hcand : cand (Murmur2.murmurhash2 key) s.mask n = bucket) (hn1 : 1 ≤ n)
    (hblock : ∀ i, 1 ≤ i → i < n →
      slotBlocked s (Murmur2.murmurhash2 key) key (cand (Murmur2.murmurhash2 key) s.mask i)) :
    MapWF (afterInsert vS wA s key (Murmur2.murmurhash2 key) bucket) ∧
    (∀ b ∈ s.occupied,
      slotAt (afterInsert vS wA s key (Murmur2.murmurhash2 key) bucket) b = slotAt s b ∧
      storedKey (afterInsert vS wA s key (Murmur2.murmurhash2 key) bucket) b = storedKey s b) ∧
    (∀ hsh k2 m b, FindsAt s hsh k2 m b →
      FindsAt (afterInsert vS wA s key (Murmur2.murmurhash2 key) bucket) hsh k2 m b) ∧
    (∀ k2, present (afterInsert vS wA s key (Murmur2.murmurhash2 key) bucket) k2 ↔
      (present s k2 ∨ k2 = key)) ∧
    ¬ present s key ∧
    FindsAt (afterInsert vS wA s key (Murmur2.murmurhash2 key) bucket)
      (Murmur2.murmurhash2 key) key n bucket ∧
    s.heap.top + 2 + key.length
      = valueAddrAt (afterInsert vS wA s key (Murmur2.murmurhash2 key) bucket) bucket ∧
    bucket ∈ (afterInsert vS wA s key (Murmur2.murmurhash2 key) bucket).occupied ∧
    storedKey (afterInsert vS wA s key (Murmur2.murmurhash2 key) bucket) bucket = key := by
  have hb_lt : bucket < s.table.length := by
    have h1 := cand_le_mask (Murmur2.murmurhash2 key) s.mask n
    have h2 := hinv.len_eq
    omega
  have hnp : ¬ present s key := by
    rintro ⟨b, hbocc, hbk⟩
    obtain ⟨n2, hf⟩ := hinv.finds b hbocc
    rw [hinv.hash_ok b hbocc, hbk] at hf
    obtain ⟨hn1b, hcb, hmb, hblockb⟩ := hf
    rcases Nat.lt_trichotomy n2 n with hlt | heq | hgt
    · rw [← hcb] at hmb
      exact (hblock n2 hn1b hlt).2 hmb
    · subst heq
      rw [hcand] at hcb
      obtain ⟨ref, href, _, _⟩ := hmb
      rw [← hcb] at href
      rw [hempty] at href
      exact Option.noConfusion href
    · exact (hblockb n hn1 hgt).1 (hcand ▸ hempty)
  refine ⟨MapWF_afterInsert vS wA s key (Murmur2.murmurhash2 key) bucket n hinv hempty
      hcand hn1 hblock rfl,
    fun b hb => ⟨(storedKey_afterInsert_occ vS wA s key (Murmur2.murmurhash2 key)
        bucket hinv hempty hb).2,
      (storedKey_afterInsert_occ vS wA s key (Murmur2.murmurhash2 key)
        bucket hinv hempty hb).1⟩,
    fun hsh k2 m b hf => FindsAt_afterInsert vS wA s key (Murmur2.murmurhash2 key)
      bucket hinv hempty hf,
    ?_, hnp, ?_, ?_, ?_, storedKey_afterInsert_self vS wA s key (Murmur2.murmurhash2 key)
      bucket hb_lt⟩
  · intro k2
    constructor
    · rintro ⟨b, hbocc, hbk⟩
      rcases List.mem_append.mp hbocc with hold | hbnew
      · refine Or.inl ⟨b, hold, ?_⟩
        rw [← (storedKey_afterInsert_occ vS wA s key (Murmur2.murmurhash2 key)
          bucket hinv hempty hold).1]
        exact hbk
      · have hbb : b = bucket := by simpa using hbnew
        rw [hbb, storedKey_afterInsert_self vS wA s key (Murmur2.murmurhash2 key)
          bucket hb_lt] at hbk
        exact Or.inr hbk.symm
    · rintro (⟨b, hbocc, hbk⟩ | hk2)
      · refine ⟨b, List.mem_append.mpr (Or.inl hbocc), ?_⟩
        rw [(storedKey_afterInsert_occ vS wA s key (Murmur2.murmurhash2 key)
          bucket hinv hempty hbocc).1]
        exact hbk
      · rw [hk2]
        exact ⟨bucket, List.mem_append.mpr (Or.inr (by simp)),
          storedKey_afterInsert_self vS wA s key (Murmur2.murmurhash2 key) bucket hb_lt⟩
  · refine ⟨hn1, hcand, ?_, ?_⟩
    · refine ⟨s.heap.top, ?_, ?_,
        get_slice_afterInsert_new vS wA s key (Murmur2.murmurhash2 key) bucket⟩
      · rw [slotAt_afterInsert_self vS wA s key (Murmur2.murmurhash2 key) bucket hb_lt]
      · rw [slotAt_afterInsert_self vS wA s key (Murmur2.murmurhash2 key) bucket hb_lt]
    · intro i h1 h2
      exact slotBlocked_afterInsert vS wA s key (Murmur2.murmurhash2 key) bucket hinv
        hempty (hblock i h1 h2)
  · exact (valueAddrAt_afterInsert_self vS wA s key (Murmur2.murmurhash2 key)
      bucket hb_lt).symm
  · exact List.mem_append.mpr (Or.inr (by simp))

/-- Effect of one successful `get_or_create` call: the invariant is
preserved, the table geometry is unchanged, the occupancy order is extended
(by nothing for a present key, by exactly the new bucket for an absent key),
previously occupied slots and their keys are untouched, probe paths of
stored keys are preserved, and the returned term id and value address are
those of the key's slot. -/
theorem step_ok (vS : Nat) (wA : Nat → V) (s : TermHashMap V) (key : List Nat)
    (fuel id a : Nat) (s2 : TermHashMap V) (hinv : MapWF s)
    (hok : get_or_create vS wA s key fuel = .ok id a s2) :
    MapWF s2 ∧ s2.mask = s.mask ∧ s2.table.length = s.table.length ∧
    (∃ tail, s2.occupied = s.occupied ++ tail) ∧
    (∀ b ∈ s.occupied, slotAt s2 b = slotAt s b ∧ storedKey s2 b = storedKey s b) ∧
    (∀ hsh k2 n b, FindsAt s hsh k2 n b → FindsAt s2 hsh k2 n b) ∧
    (∀ k2, present s2 k2 ↔ (present s k2 ∨ k2 = key)) ∧
    (present s key → s2 = s) ∧
    (¬ present s key → s2.occupied = s.occupied ++ [id]) ∧
    (∃ n, n ≤ fuel ∧ FindsAt s2 (Murmur2.murmurhash2 key) key n id) ∧
    a = valueAddrAt s2 id ∧ id ∈ s2.occupied ∧ storedKey s2 id = key := by
  rcases loop_char vS wA s key (Murmur2.murmurhash2 key) fuel 0 (.ok id a s2) hok
    with hout | ⟨n, hn1, hn2, hblock, hstop⟩
  · exact GetResult.noConfusion hout
  rcases hstop with ⟨hempty, hins⟩ | ⟨hm, hmatch⟩
  · rw [insertNew_eq] at hins
    injection hins with h1 h2 h3
    subst h1
    subst h2
    subst h3
    obtain ⟨hW, hocc5, hfind6, hiff, hnp, hFA, hval, hmem, hsk⟩ :=
      afterInsert_pack vS wA s key (cand (Murmur2.murmurhash2 key) s.mask n) n hinv
        hempty rfl hn1 hblock
    exact ⟨hW, rfl, by simp [afterInsert], ⟨[cand (Murmur2.murmurhash2 key) s.mask n], rfl⟩,
      hocc5, hfind6, hiff, fun hp => absurd hp hnp, fun _ => rfl,
      ⟨n, by omega, hFA⟩, hval, hmem, hsk⟩
  · injection hmatch with h1 h2 h3
    subst h1
    subst h2
    subst s2
    have hb_lt : cand (Murmur2.murmurhash2 key) s.mask n < s.table.length := by
      have h1 := cand_le_mask (Murmur2.murmurhash2 key) s.mask n
      have h2 := hinv.len_eq
      omega
    obtain ⟨ref, href, hh, hk⟩ := hm
    have hne : (slotAt s (cand (Murmur2.murmurhash2 key) s.mask n)).key_value_addr ≠ none := by
      rw [href]
      simp
    have hbocc : cand (Murmur2.murmurhash2 key) s.mask n ∈ s.occupied :=
      (hinv.occ_iff _).mpr ⟨hne, hb_lt⟩
    have hsk : storedKey s (cand (Murmur2.murmurhash2 key) s.mask n) = key := by
      simp only [storedKey, href, Option.getD_some]
      exact hk
    have hpres : present s key := ⟨_, hbocc, hsk⟩
    refine ⟨hinv, rfl, rfl, ⟨[], by simp⟩, fun b hb => ⟨rfl, rfl⟩, fun _ _ _ _ hf => hf,
      ?_, fun _ => rfl, fun hc => absurd hpres hc,
      ⟨n, by omega, hn1, rfl, ⟨ref, href, hh, hk⟩, hblock⟩, rfl, hbocc, hsk⟩
    intro k2
    constructor
    · exact Or.inl
    · rintro (h | rfl)
      · exact h
      · exact hpres

theorem slotAt_new (B : Nat) (h0 : Heap V) (b : Nat) :
    slotAt (TermHashMap.new B h0) b = default := by
  simp only [slotAt, TermHashMap.new, List.getD_eq_getElem?_getD, List.getElem?_replicate]
  by_cases hb : b < 1 <<< B
  · simp [hb]
  · simp [hb]

theorem MapWF_new (B : Nat) (h0 : Heap V) : MapWF (TermHashMap.new B h0) := by
  have hpos : 0 < 1 <<< B := by
    rw [Nat.one_shiftLeft]
    exact Nat.pos_pow_of_pos B (by norm_num)
  constructor
  · show (List.replicate (1 <<< B) default).length = 1 <<< B - 1 + 1
    rw [List.length_replicate]
    omega
  · intro b ref href
    rw [slotAt_new] at href
    exact Option.noConfusion href
  · intro b
    constructor
    · intro hb
      exact absurd hb (List.not_mem_nil b)
    · rintro ⟨hne, _⟩
      rw [slotAt_new] at hne
      exact absurd rfl hne
  · exact List.nodup_nil
  · intro b hb
    exact absurd hb (List.not_mem_nil b)
  · intro b hb
    exact absurd hb (List.not_mem_nil b)

/-- Effect of a successful sequence of `get_or_create` calls: the invariant
is preserved, geometry is unchanged, the occupancy order is only extended,
existing slots and their keys are untouched, probe paths are preserved, and
the keys present afterwards are the keys present before plus the keys run. -/
theorem run_ok (vS : Nat) (wA : Nat → V) (fuel : Nat) :
    ∀ ks (s s2 : TermHashMap V), MapWF s → runKeys vS wA fuel s ks = some s2 →
    MapWF s2 ∧ s2.mask = s.mask ∧ s2.table.length = s.table.length ∧
    (∃ tail, s2.occupied = s.occupied ++ tail) ∧
    (∀ b ∈ s.occupied, slotAt s2 b = slotAt s b ∧ storedKey s2 b = storedKey s b) ∧
    (∀ hsh k2 n b, FindsAt s hsh k2 n b → FindsAt s2 hsh k2 n b) ∧
    (∀ k2, present s2 k2 ↔ (present s k2 ∨ k2 ∈ ks)) := by
  intro ks
  induction ks with
  | nil =>
    intro s s2 hinv hrun
    obtain rfl : s = s2 := Option.some.inj hrun
    refine ⟨hinv, rfl, rfl, ⟨[], by simp⟩, fun b hb => ⟨rfl, rfl⟩,
      fun _ _ _ _ h => h, fun k2 => ?_⟩
    constructor
    · exact Or.inl
    · rintro (h | h)
      · exact h
      · exact absurd h (List.not_mem_nil k2)
  | cons k ks ih =>
    intro s s2 hinv hrun
    cases hstep : get_or_create vS wA s k fuel with
    | ok id a s1 =>
      have hrun1 : runKeys vS wA fuel s1 ks = some s2 := by
        simpa [runKeys, hstep] using hrun
      obtain ⟨hW, hmask, hlen, ⟨t1, ht1⟩, hocc, hfinds, hiff, _, _, _, _, _, _⟩ :=
        step_ok vS wA s k fuel id a s1 hinv hstep
      obtain ⟨hW2, hmask2, hlen2, ⟨t2, ht2⟩, hocc2, hfinds2, hiff2⟩ :=
        ih s1 s2 hW hrun1
      refine ⟨hW2, by rw [hmask2, hmask], by rw [hlen2, hlen],
        ⟨t1 ++ t2, by rw [ht2, ht1, List.append_assoc]⟩, ?_,
        fun hsh k2 n b hf => hfinds2 _ _ _ _ (hfinds _ _ _ _ hf), ?_⟩
      · intro b hb
        have h1 := hocc b hb
        have hb1 : b ∈ s1.occupied := by
          rw [ht1]
          exact List.mem_append.mpr (Or.inl hb)
        have h2 := hocc2 b hb1
        exact ⟨by rw [h2.1, h1.1], by rw [h2.2, h1.2]⟩
      · intro k2
        rw [hiff2 k2, hiff k2]
        constructor
        · rintro ((h | h) | h)
          · exact Or.inl h
          · exact Or.inr (by simp [h])
          · exact Or.inr (List.mem_cons_of_mem _ h)
        · rintro (h | h)
          · exact Or.inl (Or.inl h)
          · rcases List.mem_cons.mp h with heq | hmem
            · exact Or.inl (Or.inr heq)
            · exact Or.inr hmem
    | assertFailed => simp [runKeys, hstep] at hrun
    | fuelOut => simp [runKeys, hstep] at hrun

/-! ## Claim theorems about the hash table -/

/-- C3: a normal return of `get_or_create` happens at the first candidate of
the quadratic probe sequence `(murmur(key) + i*i) & mask`, `i = 1, 2, ...`
(counter incremented before each examination), whose slot is either empty or
matches both the stored hash and the resolved key bytes; every earlier
candidate — including any slot with equal hash but different key bytes — is
passed over; `compute` seeds the counter at 0 and `next_probe` increments it
before forming the candidate. -/
theorem get_or_create_probing (V : Type) (vS : Nat) (wA : Nat → V)
    (s : TermHashMap V) (key : List Nat) (fuel id a : Nat) (s2 : TermHashMap V)
    (hok : get_or_create vS wA s key fuel = .ok id a s2) :
    ProbeSpec s key fuel id ∧
    (∀ hash mask : Nat, QuadraticProbing.compute hash mask = ⟨hash, 0, mask⟩) ∧
    (∀ p : QuadraticProbing,
      p.next_probe = (⟨p.hash, p.i + 1, p.mask⟩,
        (p.hash + (p.i + 1) * (p.i + 1)) &&& p.mask)) := by
  refine ⟨?_, fun hash mask => rfl, fun p => rfl⟩
  rcases loop_char vS wA s key (Murmur2.murmurhash2 key) fuel 0 (.ok id a s2) hok
    with hout | ⟨n, hn1, hn2, hblock, hstop⟩
  · exact GetResult.noConfusion hout
  refine ⟨n, hn1, by omega, ?_, ?_, ?_⟩
  · rcases hstop with ⟨_, hins⟩ | ⟨_, hmatch⟩
    · rw [insertNew_eq] at hins
      exact congrArg okId hins
    · exact congrArg okId hmatch
  · intro i h1 h2
    obtain ⟨hne, hnm⟩ := hblock i h1 h2
    refine ⟨hne, ?_⟩
    rintro ⟨hh, hk⟩
    apply hnm
    obtain ⟨ref, href⟩ := Option.ne_none_iff_exists'.mp hne
    have href2 : (slotAt s ((Murmur2.murmurhash2 key + i * i) &&& s.mask)).key_value_addr
        = some ref := href
    refine ⟨ref, href, hh, ?_⟩
    rw [href2] at hk
    simpa using hk
  · rcases hstop with ⟨hempty, _⟩ | ⟨hm, _⟩
    · exact Or.inl hempty
    · obtain ⟨ref, href, hh, hk⟩ := hm
      have href2 : (slotAt s ((Murmur2.murmurhash2 key + n * n) &&& s.mask)).key_value_addr
          = some ref := href
      refine Or.inr ⟨hh, ?_⟩
      rw [href2]
      simpa using hk

/-- Witness for C3: the first insertion of `[1]` into the fresh table
satisfies the probing discipline. -/
theorem get_or_create_probing_check : ProbeSpec s0Ex [1] 5 (okId r1Ex) :=
  (get_or_create_probing Nat 4 (fun a => a) s0Ex [1] 5 (okId r1Ex) (okAddr r1Ex)
    (okState r1Ex s0Ex) rfl).1

/-- C10: calling `get_or_create` with a key that is already present changes
nothing: the resulting state is the old state, so the slot array, the
occupancy order, the saturation flag, and the arena (in particular its bump
pointer: no allocation) are all unchanged. -/
theorem get_or_create_present_frame (V : Type) (vS : Nat) (wA : Nat → V)
    (s : TermHashMap V) (key : List Nat) (fuel id a : Nat) (s2 : TermHashMap V)
    (hinv : MapWF s) (hpres : present s key)
    (hok : get_or_create vS wA s key fuel = .ok id a s2) :
    s2 = s ∧ s2.table = s.table ∧ s2.occupied = s.occupied ∧
    is_saturated s2 = is_saturated s ∧ s2.heap = s.heap ∧ s2.heap.top = s.heap.top := by
  have h := (step_ok vS wA s key fuel id a s2 hinv hok).2.2.2.2.2.2.2.1 hpres
  subst s2
  exact ⟨rfl, rfl, rfl, rfl, rfl, rfl⟩

/-- Witness for C10: re-interning `[1]` in the state that already holds it
returns the very same state. -/
theorem get_or_create_present_frame_check :
    okState (get_or_create 4 (fun a => a) s1Ex [1] 5) s0Ex = s1Ex :=
  (get_or_create_present_frame Nat 4 (fun a => a) s1Ex [1] 5
    (okId (get_or_create 4 (fun a => a) s1Ex [1] 5))
    (okAddr (get_or_create 4 (fun a => a) s1Ex [1] 5))
    (okState (get_or_create 4 (fun a => a) s1Ex [1] 5) s0Ex)
    ((step_ok 4 (fun a => a) s0Ex [1] 5 (okId r1Ex) (okAddr r1Ex) s1Ex
      (MapWF_new 2 emptyHeap) rfl).1)
    ⟨okId r1Ex, by decide, rfl⟩
    rfl).1

/-- C1: `get_or_create` is idempotent: after a first call returned
`(id, a)` for `key`, any interleaved insertions of other keys leave a state
in which a second call with `key` again returns term id `id` and the same
value-object address `a`, with the state unchanged; since both references
are the same arena address, a value written through the first is read back
through the second. -/
theorem get_or_create_idempotent (V : Type) (vS : Nat) (wA : Nat → V)
    (s : TermHashMap V) (key : List Nat) (fuel1 id a : Nat) (s1 : TermHashMap V)
    (ks : List (List Nat)) (fuel : Nat) (s2 : TermHashMap V)
    (hinv : MapWF s)
    (hok1 : get_or_create vS wA s key fuel1 = .ok id a s1)
    (hks : ∀ k2 ∈ ks, k2 ≠ key)
    (hrun : runKeys vS wA fuel s1 ks = some s2) :
    ∀ fuel2, fuel1 ≤ fuel2 →
      get_or_create vS wA s2 key fuel2 = .ok id a s2 ∧
      (∀ v : V, (s2.heap.set_value a v).get_ref a = some v) := by
  intro fuel2 hf2
  obtain ⟨hW1, _, _, _, _, _, _, _, _, hex, ha, hmem, _⟩ :=
    step_ok vS wA s key fuel1 id a s1 hinv hok1
  obtain ⟨n, hnle, hFA⟩ := hex
  obtain ⟨hW2, hmask2, _, _, hocc2, hfinds2, _⟩ := run_ok vS wA fuel ks s1 s2 hW1 hrun
  have hFA2 := hfinds2 _ _ _ _ hFA
  obtain ⟨hn1, hc, hm, hblock⟩ := hFA2
  have hloop := loop_finds vS wA s2 key (Murmur2.murmurhash2 key) fuel2 0 n id hm hc
    (fun i h1 h2 => hblock i h1 h2) (by omega) (by omega)
  constructor
  · have hval2 : valueAddrAt s2 id = a := by
      rw [ha, valueAddrAt_eq, valueAddrAt_eq, (hocc2 id hmem).1, (hocc2 id hmem).2]
    rw [← hval2]
    exact hloop
  · intro v
    simp [Heap.set_value, Heap.get_ref, lookup_cons_self]

/-- Witness for C1: interning `[1]`, then `[2]`, then `[1]` again returns
the original term id and value address and does not change the state. -/
theorem get_or_create_idempotent_check :
    get_or_create 4 (fun a => a) sRunEx [1] 7 = .ok (okId r1Ex) (okAddr r1Ex) sRunEx :=
  (get_or_create_idempotent Nat 4 (fun a => a) s0Ex [1] 5 (okId r1Ex) (okAddr r1Ex)
    s1Ex [[2]] 5 sRunEx (MapWF_new 2 emptyHeap) rfl (by decide) rfl 7 (by omega)).1

/-- C5: `is_saturated` is true exactly when the number of occupied slots
exceeds one third of the slot capacity (`capacity < occupied * 3`), and once
true it stays true under any further successful sequence of `get_or_create`
calls, slots only ever being added. -/
theorem is_saturated_spec (V : Type) (s : TermHashMap V) (hinv : MapWF s) :
    (is_saturated s = true ↔ s.table.length < numOccupiedSlots s * 3) ∧
    (∀ (vS : Nat) (wA : Nat → V) ks fuel s2, runKeys vS wA fuel s ks = some s2 →
       is_saturated s = true → is_saturated s2 = true) := by
  have hcount : s.occupied.length = numOccupiedSlots s := by
    have hperm : s.occupied.Perm
        ((List.range s.table.length).filter
          fun b => (slotAt s b).key_value_addr.isSome) := by
      refine (List.perm_ext_iff_of_nodup hinv.occ_nodup
        ((List.nodup_range _).filter _)).mpr ?_
      intro b
      rw [List.mem_filter, List.mem_range, hinv.occ_iff b]
      constructor
      · rintro ⟨hne, hlt⟩
        exact ⟨hlt, Option.isSome_iff_ne_none.mpr hne⟩
      · rintro ⟨hlt, hsome⟩
        exact ⟨Option.isSome_iff_ne_none.mp hsome, hlt⟩
    exact hperm.length_eq
  constructor
  · simp only [is_saturated, decide_eq_true_eq, hcount]
  · intro vS wA ks fuel s2 hrun hsat
    obtain ⟨_, _, hlen, ⟨tail, htail⟩, _, _, _⟩ := run_ok vS wA fuel ks s s2 hinv hrun
    simp only [is_saturated, decide_eq_true_eq] at hsat ⊢
    rw [hlen, htail, List.length_append]
    omega

/-- Witness for C5: the saturation flag of the one-element state `s1Ex`
agrees with the occupied-slot count criterion. -/
theorem is_saturated_spec_check :
    is_saturated s1Ex = true ↔ s1Ex.table.length < numOccupiedSlots s1Ex * 3 :=
  (is_saturated_spec Nat s1Ex
    ((step_ok 4 (fun a => a) s0Ex [1] 5 (okId r1Ex) (okAddr r1Ex) s1Ex
      (MapWF_new 2 emptyHeap) rfl).1)).1

theorem firstIdx_cons_self (k : List Nat) (ks : List (List Nat)) :
    firstIdx k (k :: ks) = 0 := by
  simp [firstIdx]

theorem firstIdx_cons_ne (k k2 : List Nat) (ks : List (List Nat)) (h : k2 ≠ k) :
    firstIdx k (k2 :: ks) = firstIdx k ks + 1 := by
  simp [firstIdx, h]

/-- Pairwise insertion-order lemma: over any successful run of keys from a
well-formed state, a key first occurring strictly before another (both fresh
at the start) receives a strictly earlier position in the occupancy order. -/
theorem run_pair (vS : Nat) (wA : Nat → V) (fuel : Nat) :
    ∀ ks (s s2 : TermHashMap V), MapWF s → runKeys vS wA fuel s ks = some s2 →
    ∀ k1 k2, k1 ≠ k2 → ¬ present s k1 → ¬ present s k2 →
    k1 ∈ ks → k2 ∈ ks → firstIdx k1 ks < firstIdx k2 ks →
    ∃ j1 j2 b1 b2 : Nat, j1 < j2 ∧
      s2.occupied[j1]? = some b1 ∧ storedKey s2 b1 = k1 ∧
      s2.occupied[j2]? = some b2 ∧ storedKey s2 b2 = k2 := by
  intro ks
  induction ks with
  | nil =>
    intro s s2 _ _ k1 k2 _ _ _ h1
    exact absurd h1 (List.not_mem_nil k1)
  | cons k ks ih =>
    intro s s2 hinv hrun k1 k2 hne hnp1 hnp2 hm1 hm2 hidx
    cases hstep : get_or_create vS wA s k fuel with
    | ok id a s1 =>
      have hrun1 : runKeys vS wA fuel s1 ks = some s2 := by
        simpa [runKeys, hstep] using hrun
      obtain ⟨hW1, _, _, _, _, _, hiff1, _, hnews, _, _, hmem1, hsk1⟩ :=
        step_ok vS wA s k fuel id a s1 hinv hstep
      by_cases hk1 : k1 = k
      · have hk2ne : k2 ≠ k := fun h => hne (hk1.trans h.symm)
        have hm2x : k2 ∈ ks := by
          rcases List.mem_cons.mp hm2 with h | h
          · exact absurd h hk2ne
          · exact h
        have hnpk : ¬ present s k := by
          rw [← hk1]
          exact hnp1
        have hocc_new : s1.occupied = s.occupied ++ [id] := hnews hnpk
        obtain ⟨hW2x, _, _, ⟨tail, htail⟩, hocc2, _, hiff2⟩ :=
          run_ok vS wA fuel ks s1 s2 hW1 hrun1
        have hlen1 : s1.occupied.length = s.occupied.length + 1 := by
          rw [hocc_new]
          simp
        have hj1 : s2.occupied[s.occupied.length]? = some id := by
          rw [htail]
          have hlt : s.occupied.length < s1.occupied.length := by omega
          rw [List.getElem?_append_left hlt, hocc_new,
            List.getElem?_append_right (le_refl _)]
          simp
        have hsk2 : storedKey s2 id = k1 := by
          rw [(hocc2 id hmem1).2, hsk1, hk1]
        have hnp2s1 : ¬ present s1 k2 := by
          intro hp
          rcases (hiff1 k2).mp hp with h | h
          · exact hnp2 h
          · exact hk2ne h
        obtain ⟨b2, hb2mem, hb2k⟩ := (hiff2 k2).mpr (Or.inr hm2x)
        have hb2notin : b2 ∉ s1.occupied := by
          intro hmem
          refine hnp2s1 ⟨b2, hmem, ?_⟩
          rw [← (hocc2 b2 hmem).2]
          exact hb2k
        have hb2tail : b2 ∈ tail := by
          have hb2mem2 : b2 ∈ s1.occupied ++ tail := by
            rw [← htail]
            exact hb2mem
          rcases List.mem_append.mp hb2mem2 with h | h
          · exact absurd h hb2notin
          · exact h
        obtain ⟨t, ht⟩ := List.mem_iff_getElem?.mp hb2tail
        refine ⟨s.occupied.length, s1.occupied.length + t, id, b2, by omega,
          hj1, hsk2, ?_, hb2k⟩
        rw [htail, List.getElem?_append_right
          (by omega : s1.occupied.length ≤ s1.occupied.length + t)]
        have harith : s1.occupied.length + t - s1.occupied.length = t := by omega
        rw [harith]
        exact ht
      · have hk2ne : k2 ≠ k := by
          intro h
          rw [h, firstIdx_cons_self] at hidx
          omega
        have hnp1x : ¬ present s1 k1 := by
          intro hp
          rcases (hiff1 k1).mp hp with h | h
          · exact hnp1 h
          · exact hk1 h
        have hnp2x : ¬ present s1 k2 := by
          intro hp
          rcases (hiff1 k2).mp hp with h | h
          · exact hnp2 h
          · exact hk2ne h
        have hm1x : k1 ∈ ks := by
          rcases List.mem_cons.mp hm1 with h | h
          · exact absurd h hk1
          · exact h
        have hm2x : k2 ∈ ks := by
          rcases List.mem_cons.mp hm2 with h | h
          · exact absurd h hk2ne
          · exact h
        have hidxx : firstIdx k1 ks < firstIdx k2 ks := by
          rw [firstIdx_cons_ne k1 k ks (fun h => hk1 h.symm),
            firstIdx_cons_ne k2 k ks (fun h => hk2ne h.symm)] at hidx
          omega
        exact ih s1 s2 hW1 hrun1 k1 k2 hne hnp1x hnp2x hm1x hm2x hidxx
    | assertFailed => simp [runKeys, hstep] at hrun
    | fuelOut => simp [runKeys, hstep] at hrun

/-- C2: iteration yields entries in first-insertion order: over any
successful run of keys on a fresh table, if `k1`'s first occurrence precedes
`k2`'s (`k1 ≠ k2`), then `iter` produces `k1`'s entry (key bytes, value
address, term id) strictly before `k2`'s, regardless of hash values or slot
positions. -/
theorem iter_insertion_order (V : Type) (vS : Nat) (wA : Nat → V)
    (B fuel : Nat) (h0 : Heap V) (ks : List (List Nat)) (s2 : TermHashMap V)
    (hrun : runKeys vS wA fuel (TermHashMap.new B h0) ks = some s2)
    (k1 k2 : List Nat) (hne : k1 ≠ k2) (hm1 : k1 ∈ ks) (hm2 : k2 ∈ ks)
    (hidx : firstIdx k1 ks < firstIdx k2 ks) :
    ∃ j1 j2 a1 a2 b1 b2 : Nat, j1 < j2 ∧
      (iterEntries s2)[j1]? = some (k1, a1, b1) ∧
      (iterEntries s2)[j2]? = some (k2, a2, b2) := by
  have hnp1 : ¬ present (TermHashMap.new B h0) k1 := by
    rintro ⟨b, hb, _⟩
    exact List.not_mem_nil b hb
  have hnp2 : ¬ present (TermHashMap.new B h0) k2 := by
    rintro ⟨b, hb, _⟩
    exact List.not_mem_nil b hb
  obtain ⟨j1, j2, b1, b2, hj, h1, hs1, h2, hs2⟩ :=
    run_pair vS wA fuel ks (TermHashMap.new B h0) s2 (MapWF_new B h0) hrun
      k1 k2 hne hnp1 hnp2 hm1 hm2 hidx
  have hiter : iterEntries s2
      = s2.occupied.map (fun b => (storedKey s2 b, valueAddrAt s2 b, b)) := rfl
  refine ⟨j1, j2, valueAddrAt s2 b1, valueAddrAt s2 b2, b1, b2, hj, ?_, ?_⟩
  · rw [hiter, List.getElem?_map, h1, Option.map_some', hs1]
  · rw [hiter, List.getElem?_map, h2, Option.map_some', hs2]

/-- Witness for C2: running the keys `[1]` then `[2]` on a fresh table, the
iterator yields `[1]`'s entry strictly before `[2]`'s. -/
theorem iter_insertion_order_check :
    ∃ j1 j2 a1 a2 b1 b2 : Nat, j1 < j2 ∧
      (iterEntries sPairEx)[j1]? = some ([1], a1, b1) ∧
      (iterEntries sPairEx)[j2]? = some ([2], a2, b2) :=
  iter_insertion_order Nat 4 (fun a => a) 2 5 emptyHeap [[1], [2]] sPairEx rfl
    [1] [2] (by decide) (by decide) (by decide) (by decide)

/-- Witness for C8: the contiguity equation holds at a concrete allocation,
and so does the `get_key_value` address formula. -/
theorem get_or_create_contiguity_check :
    ((emptyHeap.allocate_and_set [1]).2.allocate_object 4 (fun a => a)).1
      = (emptyHeap.allocate_and_set [1]).1 + 2 + [1].length ∧
    get_key_value s0Ex 0 = (s0Ex.heap.get_slice 0, 0 + 2 + (s0Ex.heap.get_slice 0).length) :=
  ⟨(get_or_create_contiguity Nat 4 (fun a => a)).2.1 emptyHeap [1],
   (get_or_create_contiguity Nat 4 (fun a => a)).2.2 s0Ex 0⟩
